import Mathlib

/-!
Shallow embedding of the conta-bar application core (src/js/main.js and the
store module) together with proofs about it: the Levenshtein matcher
(`levenshtein`, `findBestMatch`), the OCR line parser (`parseOcrResult`),
the autofill reconciler (`populateFormWithOcrData`, `handleOcrText`) and the
balance derivation of the store (`getClientBalance`, `addPayment`).
-/

namespace ContaBar

/- ==========================================================================
   Levenshtein distance (main.js, function levenshtein)
   ========================================================================== -/

/-- JS `toLowerCase`, modelled characterwise with `Char.toLower`: the ASCII
case mapping, which covers every input occurring in this development (the
full Unicode case mapping of JS is not modelled). -/
def jsToLower (s : String) : String := String.mk (s.data.map Char.toLower)

/-- Reference recurrence for the entries of the dynamic-programming matrix
of `levenshtein` in main.js.  The source fills `matrix[i][j]` (the distance
between the first `j` characters of `a` and the first `i` characters of
`b`) from base row `matrix[0][j] = j`, base column `matrix[i][0] = i` and
the recurrence that compares `b.charAt(i-1)` with `a.charAt(j-1)`, keeps the
diagonal on equality and otherwise takes the minimum of substitution
`matrix[i-1][j-1] + 1`, insertion `matrix[i][j-1] + 1` and deletion
`matrix[i-1][j] + 1`.  Peeling the last character of a prefix is peeling the
head of the reversed prefix, so on reversed character lists this recursion
is exactly that recurrence; `levenshtein_eq_levRec` below proves that the
row-by-row loop of the source computes it. -/
def levRec : List Char → List Char → Nat
  | [], b => b.length
  | a, [] => a.length
  | x :: a, y :: b =>
    if y = x then
      levRec a b
    else
      min (levRec a b + 1)
        (min (levRec a (y :: b) + 1) (levRec (x :: a) b + 1))
termination_by a b => a.length + b.length

/-- Inner `for j` loop of `levenshtein` in main.js, producing the cells
`matrix[i][1], ..., matrix[i][a.length]` of a new row.  The first list holds
the characters `a.charAt(j-1), ...` still to process, the second the suffix
`matrix[i-1][j-1], matrix[i-1][j], ...` of the previous row, `left` is the
cell `matrix[i][j-1]` just written, and `y` is `b.charAt(i-1)`.  The final
wildcard arm reads past the end of the previous row; it is never reached
because the previous row always carries `a.length + 1` cells, one more than
the characters remaining. -/
def buildRow (y : Char) : List Char → List Nat → Nat → List Nat
  | [], _, _ => []
  | x :: a, pdiag :: pup :: prest, left =>
    let cell := if y = x then pdiag
      else min (pdiag + 1) (min (left + 1) (pup + 1))
    cell :: buildRow y a (pup :: prest) cell
  | _ :: _, _, _ => []

/-- Outer `for i` loop of `levenshtein` in main.js: each pass replaces the
previous row by the new row `matrix[i]`, whose first cell is the base-column
value `i`. -/
def levRows (a : List Char) : List Char → List Nat → Nat → List Nat
  | [], row, _ => row
  | y :: b, row, i => levRows a b (i :: buildRow y a row i) (i + 1)

/-- The source function `levenshtein(a, b)`: the early guards for an empty
string, then the row-by-row computation of the matrix starting from the base
row `matrix[0] = [0, 1, ..., a.length]`, returning the final entry
`matrix[b.length][a.length]`. -/
def levenshtein (a b : String) : Nat :=
  if a.length = 0 then b.length
  else if b.length = 0 then a.length
  else (levRows a.data b.data (List.range (a.data.length + 1)) 1).getLastD 0

theorem levRec_nil_left (v : List Char) : levRec [] v = v.length := by
  simp [levRec]

theorem levRec_nil_right (u : List Char) : levRec u [] = u.length := by
  cases u <;> simp [levRec]

theorem levRec_cons_cons (x : Char) (u : List Char) (y : Char)
    (v : List Char) :
    levRec (x :: u) (y :: v) =
      if y = x then levRec u v
      else min (levRec u v + 1)
        (min (levRec u (y :: v) + 1) (levRec (x :: u) v + 1)) := by
  simp [levRec]

theorem levRec_symm : (u v : List Char) → levRec u v = levRec v u
  | [], [] => rfl
  | [], _ :: _ => by simp [levRec]
  | _ :: _, [] => by simp [levRec]
  | x :: u, y :: v => by
    have ih1 := levRec_symm u v
    have ih2 := levRec_symm u (y :: v)
    have ih3 := levRec_symm (x :: u) v
    rw [levRec_cons_cons, levRec_cons_cons]
    by_cases h : y = x
    · simp only [if_pos h, if_pos h.symm, ih1]
    · have h' : ¬ x = y := fun hxy => h hxy.symm
      simp only [if_neg h, if_neg h', ih1, ih2, ih3]
      omega
termination_by u v => u.length + v.length

/- Bridge between the row loop and the reference recurrence.  The invariant
carries, for every reversed prefix `w` of `a` (as produced by a `scanl` of
cons), the value `levRec w v`, where `v` is the reversed part of `b`
consumed so far. -/

theorem scanl_cons_head (a : List Char) (w : List Char) :
    List.scanl (fun w x => x :: w) w a =
      w :: (List.scanl (fun w x => x :: w) w a).tail := by
  cases a <;> simp [List.scanl]

theorem scanl_cons_getLastD (a : List Char) (w d : List Char) :
    (List.scanl (fun w x => x :: w) w a).getLastD d = a.reverse ++ w := by
  induction a generalizing w d with
  | nil => simp [List.scanl]
  | cons x a ih =>
    rw [List.scanl]
    rw [List.getLastD_cons]
    rw [ih (x :: w) w]
    simp

theorem scanl_map_length (a : List Char) (w : List Char) :
    (List.scanl (fun w x => x :: w) w a).map List.length =
      List.range' w.length (a.length + 1) := by
  induction a generalizing w with
  | nil => simp [List.scanl, List.range']
  | cons x a ih =>
    rw [List.scanl]
    rw [List.map_cons, ih (x :: w)]
    simp [List.range']

theorem getLastD_map (g : List Char → Nat) (l : List (List Char))
    (hne : l ≠ []) (d : Nat) :
    (l.map g).getLastD d = g (l.getLastD []) := by
  induction l with
  | nil => exact absurd rfl hne
  | cons x l ih =>
    cases l with
    | nil => rfl
    | cons z l =>
      rw [List.map_cons, List.getLastD_cons, List.getLastD_cons]
      exact ih (by simp)

theorem buildRow_spec (y : Char) (v : List Char) :
    ∀ (rest arev : List Char),
      buildRow y rest
          ((List.scanl (fun w x => x :: w) arev rest).map fun w => levRec w v)
          (levRec arev (y :: v)) =
        ((List.scanl (fun w x => x :: w) arev rest).map
          fun w => levRec w (y :: v)).tail := by
  intro rest
  induction rest with
  | nil => intro arev; simp [List.scanl, buildRow]
  | cons x rest ih =>
    intro arev
    rw [List.scanl]
    rw [scanl_cons_head rest (x :: arev)]
    rw [List.map_cons, List.map_cons, List.map_cons, List.map_cons]
    rw [buildRow]
    have hcell :
        (if y = x then levRec arev v
          else min (levRec arev v + 1)
            (min (levRec arev (y :: v) + 1) (levRec (x :: arev) v + 1))) =
          levRec (x :: arev) (y :: v) := (levRec_cons_cons x arev y v).symm
    simp only [List.tail_cons]
    rw [hcell]
    have := ih (x :: arev)
    rw [scanl_cons_head rest (x :: arev), List.map_cons, List.map_cons] at this
    rw [this]
    rw [List.tail_cons]

theorem levRows_spec (a : List Char) :
    ∀ (b v : List Char),
      levRows a b
          ((List.scanl (fun w x => x :: w) [] a).map fun w => levRec w v)
          (v.length + 1) =
        (List.scanl (fun w x => x :: w) [] a).map
          fun w => levRec w (b.reverse ++ v) := by
  intro b
  induction b with
  | nil => intro v; simp [levRows]
  | cons y b ih =>
    intro v
    rw [levRows]
    have hhead : (v.length + 1 : Nat) = levRec [] (y :: v) := by
      rw [levRec_nil_left]; rfl
    have hrow :
        (v.length + 1) ::
            buildRow y a
              ((List.scanl (fun w x => x :: w) [] a).map fun w => levRec w v)
              (v.length + 1) =
          (List.scanl (fun w x => x :: w) [] a).map
            fun w => levRec w (y :: v) := by
      rw [hhead, buildRow_spec y v a []]
      rw [scanl_cons_head a []]
      simp only [List.map_cons, List.tail_cons]
    rw [hrow]
    have := ih (y :: v)
    simp only [List.length_cons] at this
    rw [this]
    simp

theorem levenshtein_eq_levRec (a b : String) :
    levenshtein a b = levRec a.data.reverse b.data.reverse := by
  rw [levenshtein]
  by_cases ha : a.length = 0
  · have hdata : a.data = [] := by
      have : a.data.length = 0 := ha
      exact List.length_eq_zero.mp this
    rw [if_pos ha, hdata]
    simp only [List.reverse_nil, levRec_nil_left, List.length_reverse]
    rfl
  · rw [if_neg ha]
    by_cases hb : b.length = 0
    · have hdata : b.data = [] := by
        have : b.data.length = 0 := hb
        exact List.length_eq_zero.mp this
      rw [if_pos hb, hdata]
      simp only [List.reverse_nil, levRec_nil_right, List.length_reverse]
      rfl
    · rw [if_neg hb]
      have hrow0 :
          (List.scanl (fun w x => x :: w) [] a.data).map
              (fun w => levRec w []) =
            List.range (a.data.length + 1) := by
        have h1 :
            (List.scanl (fun w x => x :: w) [] a.data).map
                (fun w => levRec w []) =
              (List.scanl (fun w x => x :: w) [] a.data).map
                List.length := by
          apply List.map_congr_left
          intro w _
          exact levRec_nil_right w
        rw [h1, scanl_map_length, List.range_eq_range']
        rfl
      have hrows := levRows_spec a.data b.data []
      simp only [List.length_nil, List.append_nil] at hrows
      rw [← hrow0, hrows]
      rw [getLastD_map _ _ (by rw [scanl_cons_head a.data []]; simp) 0]
      rw [scanl_cons_getLastD]
      simp

/- ==========================================================================
   Fuzzy matcher (main.js, function findBestMatch)
   ========================================================================== -/

/-- Catalog row as the matcher sees it: the source reads `candidate[key]`
with `key = 'name'` and later uses `candidate.id`. -/
structure Entry where
  id : Nat
  name : String
deriving DecidableEq

/-- Candidate loop of `findBestMatch`.  The accumulator models the mutable
pair `bestMatch` / `minDistance`; `none` is the initial state
`bestMatch = null, minDistance = Infinity`, under which any distance is a
strict improvement.  After the loop the source rejects the running best when
`minDistance > query.length / 2`; the division is an exact real division on
JS numbers, and for a natural `m` the comparison `m > qLen / 2` over the
reals holds exactly when `2 * m > qLen`. -/
def findLoop {α : Type} (qLower : String) (qLen : Nat) (field : α → String) :
    List α → Option (α × Nat) → Option α
  | [], best =>
    match best with
    | none => none
    | some (b, m) => if 2 * m > qLen then none else some b
  | c :: cs, best =>
    let d := levenshtein qLower (jsToLower (field c))
    if d = 0 then some c
    else
      match best with
      | none => findLoop qLower qLen field cs (some (c, d))
      | some (b, m) =>
        if d < m then findLoop qLower qLen field cs (some (c, d))
        else findLoop qLower qLen field cs (some (b, m))

/-- The source function `findBestMatch(query, candidates, key)`.  The guard
`!query || !candidates || candidates.length === 0` returns `null`; a missing
(`null`) query or candidate list is modelled by `none`, and `!query` is also
true for the empty string.  The query is lowercased once; the threshold uses
the original query length. -/
def findBestMatch {α : Type} (query : Option String)
    (candidates : Option (List α)) (field : α → String) : Option α :=
  match query, candidates with
  | some q, some cs =>
    if q = "" ∨ cs.length = 0 then none
    else findLoop (jsToLower q) q.length field cs none
  | _, _ => none

/- ==========================================================================
   Loop lemmas for the matcher
   ========================================================================== -/

theorem findLoop_nil_none {α : Type} (qLower : String) (qLen : Nat)
    (field : α → String) :
    findLoop qLower qLen field [] none = none := rfl

theorem findLoop_nil_some {α : Type} (qLower : String) (qLen : Nat)
    (field : α → String) (b : α) (m : Nat) :
    findLoop qLower qLen field [] (some (b, m)) =
      if 2 * m > qLen then none else some b := rfl

theorem findLoop_cons_none {α : Type} (qLower : String) (qLen : Nat)
    (field : α → String) (c : α) (cs : List α) :
    findLoop qLower qLen field (c :: cs) none =
      (if levenshtein qLower (jsToLower (field c)) = 0 then some c
       else findLoop qLower qLen field cs
         (some (c, levenshtein qLower (jsToLower (field c))))) := rfl

theorem findLoop_cons_some {α : Type} (qLower : String) (qLen : Nat)
    (field : α → String) (c : α) (cs : List α) (b : α) (m : Nat) :
    findLoop qLower qLen field (c :: cs) (some (b, m)) =
      (if levenshtein qLower (jsToLower (field c)) = 0 then some c
       else if levenshtein qLower (jsToLower (field c)) < m then
         findLoop qLower qLen field cs
           (some (c, levenshtein qLower (jsToLower (field c))))
       else findLoop qLower qLen field cs (some (b, m))) := rfl

theorem foldr_min_le (l : List Nat) (m : Nat) : List.foldr min m l ≤ m := by
  induction l with
  | nil => exact le_refl m
  | cons d l ih => exact le_trans (min_le_right d _) ih

theorem foldr_min_min (l : List Nat) (a b : Nat) :
    List.foldr min (min a b) l = min a (List.foldr min b l) := by
  induction l with
  | nil => rfl
  | cons d l ih =>
    simp only [List.foldr_cons, ih]
    omega

/-- When no candidate is at distance zero, the loop ends in `null` exactly
when the minimum of the running distance and all remaining distances
exceeds half the query length. -/
theorem findLoop_none_iff {α : Type} (qLower : String) (qLen : Nat)
    (field : α → String) (cs : List α) (b : α) (m : Nat)
    (hcs : ∀ c ∈ cs, levenshtein qLower (jsToLower (field c)) ≠ 0) :
    (findLoop qLower qLen field cs (some (b, m)) = none ↔
      2 * List.foldr min m
          (cs.map fun c => levenshtein qLower (jsToLower (field c))) > qLen) := by
  induction cs generalizing b m with
  | nil =>
    rw [findLoop_nil_some]
    simp only [List.map_nil, List.foldr_nil]
    by_cases h : 2 * m > qLen
    · simp [if_pos h, h]
    · simp [if_neg h, h]
  | cons c cs ih =>
    have hd : levenshtein qLower (jsToLower (field c)) ≠ 0 :=
      hcs c (List.mem_cons_self c cs)
    have hcs' : ∀ x ∈ cs, levenshtein qLower (jsToLower (field x)) ≠ 0 :=
      fun x hx => hcs x (List.mem_cons_of_mem c hx)
    rw [findLoop_cons_some]
    simp only [if_neg hd, List.map_cons, List.foldr_cons]
    by_cases hlt : levenshtein qLower (jsToLower (field c)) < m
    · rw [if_pos hlt, ih _ _ hcs']
      have hmin :
          List.foldr min (levenshtein qLower (jsToLower (field c)))
              (cs.map fun x => levenshtein qLower (jsToLower (field x))) =
            min (levenshtein qLower (jsToLower (field c)))
              (List.foldr min m
                (cs.map fun x => levenshtein qLower (jsToLower (field x)))) := by
        rw [← foldr_min_min]
        congr 1
        omega
      rw [hmin]
    · rw [if_neg hlt, ih _ _ hcs']
      have hle :
          List.foldr min m
              (cs.map fun x => levenshtein qLower (jsToLower (field x))) ≤
            levenshtein qLower (jsToLower (field c)) :=
        le_trans (foldr_min_le _ _) (by omega)
      omega

/-- When no remaining candidate is exact or improves on the running
minimum, the loop keeps its running best and only applies the final
threshold test to it. -/
theorem findLoop_keep {α : Type} (qLower : String) (qLen : Nat)
    (field : α → String) (cs : List α) (b : α) (m : Nat)
    (hcs : ∀ x ∈ cs, levenshtein qLower (jsToLower (field x)) ≠ 0 ∧
      ¬ levenshtein qLower (jsToLower (field x)) < m) :
    findLoop qLower qLen field cs (some (b, m)) =
      if 2 * m > qLen then none else some b := by
  induction cs with
  | nil => exact findLoop_nil_some qLower qLen field b m
  | cons p cs ih =>
    have hp := hcs p (List.mem_cons_self p cs)
    rw [findLoop_cons_some, if_neg hp.1, if_neg hp.2]
    exact ih fun x hx => hcs x (List.mem_cons_of_mem p hx)

/-- The first candidate at distance zero is returned at once, whatever the
loop state, and whatever follows it. -/
theorem findLoop_exact {α : Type} (qLower : String) (qLen : Nat)
    (field : α → String) (pre : List α) (c : α) (post : List α)
    (acc : Option (α × Nat))
    (hpre : ∀ p ∈ pre, levenshtein qLower (jsToLower (field p)) ≠ 0)
    (hc : levenshtein qLower (jsToLower (field c)) = 0) :
    findLoop qLower qLen field (pre ++ c :: post) acc = some c := by
  induction pre generalizing acc with
  | nil =>
    cases acc with
    | none => rw [List.nil_append, findLoop_cons_none, if_pos hc]
    | some bm =>
      obtain ⟨b, m⟩ := bm
      rw [List.nil_append, findLoop_cons_some, if_pos hc]
  | cons p pre ih =>
    have hp := hpre p (List.mem_cons_self p pre)
    have hpre' : ∀ x ∈ pre, levenshtein qLower (jsToLower (field x)) ≠ 0 :=
      fun x hx => hpre x (List.mem_cons_of_mem p hx)
    cases acc with
    | none =>
      rw [List.cons_append, findLoop_cons_none, if_neg hp]
      exact ih _ hpre'
    | some bm =>
      obtain ⟨b, m⟩ := bm
      rw [List.cons_append, findLoop_cons_some, if_neg hp]
      by_cases hlt : levenshtein qLower (jsToLower (field p)) < m
      · rw [if_pos hlt]; exact ih _ hpre'
      · rw [if_neg hlt]; exact ih _ hpre'

/-- A strictly better candidate than everything before and after it, within
the acceptance threshold, is the loop's final answer. -/
theorem findLoop_improve {α : Type} (qLower : String) (qLen : Nat)
    (field : α → String) (pre : List α) (c : α) (post : List α)
    (b : α) (m : Nat)
    (hc0 : levenshtein qLower (jsToLower (field c)) ≠ 0)
    (hm : levenshtein qLower (jsToLower (field c)) < m)
    (hpre : ∀ p ∈ pre, levenshtein qLower (jsToLower (field c)) <
      levenshtein qLower (jsToLower (field p)))
    (hpost : ∀ x ∈ post, levenshtein qLower (jsToLower (field c)) ≤
      levenshtein qLower (jsToLower (field x)))
    (hthr : 2 * levenshtein qLower (jsToLower (field c)) ≤ qLen) :
    findLoop qLower qLen field (pre ++ c :: post) (some (b, m)) = some c := by
  induction pre generalizing b m with
  | nil =>
    rw [List.nil_append, findLoop_cons_some, if_neg hc0, if_pos hm]
    rw [findLoop_keep qLower qLen field post c
      (levenshtein qLower (jsToLower (field c)))
      (fun x hx => by
        have hx' := hpost x hx
        exact ⟨by omega, by omega⟩)]
    rw [if_neg (by omega)]
  | cons p pre ih =>
    have hp := hpre p (List.mem_cons_self p pre)
    have hp0 : levenshtein qLower (jsToLower (field p)) ≠ 0 := by omega
    have hpre' : ∀ x ∈ pre, levenshtein qLower (jsToLower (field c)) <
        levenshtein qLower (jsToLower (field x)) :=
      fun x hx => hpre x (List.mem_cons_of_mem p hx)
    rw [List.cons_append, findLoop_cons_some, if_neg hp0]
    by_cases hlt : levenshtein qLower (jsToLower (field p)) < m
    · rw [if_pos hlt]; exact ih _ _ hp hpre'
    · rw [if_neg hlt]; exact ih _ _ hm hpre'

/- ==========================================================================
   Claim theorems about the matcher
   ========================================================================== -/

/-- C10: the Levenshtein distance function of main.js is symmetric:
`levenshtein(a, b) = levenshtein(b, a)` for all strings `a`, `b`. -/
theorem levenshtein_symm (a b : String) : levenshtein a b = levenshtein b a := by
  rw [levenshtein_eq_levRec, levenshtein_eq_levRec]
  exact levRec_symm a.data.reverse b.data.reverse

/-- C9: `findBestMatch` returns `null` rather than failing whenever the
query is `null` or empty, or the candidate list is `null` or empty, for
every field selector. -/
theorem findBestMatch_degenerate {α : Type} (query : Option String)
    (candidates : Option (List α)) (field : α → String)
    (h : query = none ∨ query = some "" ∨
      candidates = none ∨ candidates = some []) :
    findBestMatch query candidates field = none := by
  rcases h with h | h | h | h <;> subst h
  · cases candidates <;> rfl
  · cases candidates with
    | none => rfl
    | some cs => simp [findBestMatch]
  · cases query <;> rfl
  · cases query with
    | none => rfl
    | some q => simp [findBestMatch]

theorem findBestMatch_degenerate_witness :
    findBestMatch (some "Beer") (some ([] : List Entry)) Entry.name = none ∧
    findBestMatch (some "") (some [Entry.mk 1 "Beer"]) Entry.name = none :=
  ⟨findBestMatch_degenerate _ _ _ (Or.inr (Or.inr (Or.inr rfl))),
   findBestMatch_degenerate _ _ _ (Or.inr (Or.inl rfl))⟩

/-- C3: for a non-empty query and a non-empty candidate list in which no
candidate matches the query exactly (case-insensitively), `findBestMatch`
returns `null` exactly when the minimal case-insensitive Levenshtein
distance over all candidates exceeds `query.length / 2` with integer
(floor) division on the query's length. -/
theorem findBestMatch_threshold {α : Type} (q : String) (c : α) (cs : List α)
    (field : α → String)
    (hq : q ≠ "")
    (hz : ∀ x ∈ c :: cs, levenshtein (jsToLower q) (jsToLower (field x)) ≠ 0) :
    (findBestMatch (some q) (some (c :: cs)) field = none ↔
      q.length / 2 <
        List.foldr min (levenshtein (jsToLower q) (jsToLower (field c)))
          (cs.map fun x => levenshtein (jsToLower q) (jsToLower (field x)))) := by
  have hc := hz c (List.mem_cons_self c cs)
  have hcs : ∀ x ∈ cs, levenshtein (jsToLower q) (jsToLower (field x)) ≠ 0 :=
    fun x hx => hz x (List.mem_cons_of_mem c hx)
  rw [findBestMatch]
  rw [if_neg (by simp [hq])]
  rw [findLoop_cons_none, if_neg hc]
  rw [findLoop_none_iff (jsToLower q) q.length field cs c _ hcs]
  omega

theorem findBestMatch_threshold_witness :
    findBestMatch (some "beer") (some [Entry.mk 1 "bxxx"]) Entry.name
        = none ∧
    ¬ findBestMatch (some "beer") (some [Entry.mk 1 "bexx"]) Entry.name
        = none := by
  constructor
  · exact (findBestMatch_threshold "beer" (Entry.mk 1 "bxxx") [] Entry.name
      (by decide) (by decide)).mpr (by decide)
  · intro h
    exact absurd ((findBestMatch_threshold "beer" (Entry.mk 1 "bexx") []
      Entry.name (by decide) (by decide)).mp h) (by decide)

/-- C4 counterexample: the claim quantifies over every query, but for the
empty query the `!query` guard returns `null` even though the candidate
list contains a candidate whose field equals the query case-insensitively
(the empty string, at distance zero), so that candidate is not returned. -/
theorem findBestMatch_empty_exact_counterexample :
    levenshtein (jsToLower "") (jsToLower "") = 0 ∧
    findBestMatch (some "") (some [Entry.mk 1 ""]) Entry.name = none := by
  refine ⟨by decide, by decide⟩

/-- C4 (amended with a non-empty query, which the guard otherwise sends to
`null`): whenever `findBestMatch` returns a candidate it is the first
candidate, in input order, attaining the minimal case-insensitive
Levenshtein distance.  First part: the first candidate at distance zero is
returned immediately, whatever follows it.  Second part: a candidate whose
distance is below every earlier candidate's distance and at most every
later candidate's distance (so later equal-distance candidates never
replace it), and which passes the acceptance threshold, is returned. -/
theorem findBestMatch_first {α : Type} (field : α → String) :
    (∀ (q : String) (pre : List α) (c : α) (post : List α),
      q ≠ "" →
      (∀ p ∈ pre, levenshtein (jsToLower q) (jsToLower (field p)) ≠ 0) →
      levenshtein (jsToLower q) (jsToLower (field c)) = 0 →
      findBestMatch (some q) (some (pre ++ c :: post)) field = some c) ∧
    (∀ (q : String) (pre : List α) (c : α) (post : List α),
      q ≠ "" →
      levenshtein (jsToLower q) (jsToLower (field c)) ≠ 0 →
      (∀ p ∈ pre, levenshtein (jsToLower q) (jsToLower (field c)) <
        levenshtein (jsToLower q) (jsToLower (field p))) →
      (∀ x ∈ post, levenshtein (jsToLower q) (jsToLower (field c)) ≤
        levenshtein (jsToLower q) (jsToLower (field x))) →
      2 * levenshtein (jsToLower q) (jsToLower (field c)) ≤ q.length →
      findBestMatch (some q) (some (pre ++ c :: post)) field = some c) := by
  constructor
  · intro q pre c post hq hpre hc
    rw [findBestMatch]
    rw [if_neg (by simp [hq])]
    exact findLoop_exact (jsToLower q) q.length field pre c post none hpre hc
  · intro q pre c post hq hc0 hpre hpost hthr
    rw [findBestMatch]
    rw [if_neg (by simp [hq])]
    cases pre with
    | nil =>
      rw [List.nil_append, findLoop_cons_none, if_neg hc0]
      rw [findLoop_keep (jsToLower q) q.length field post c
        (levenshtein (jsToLower q) (jsToLower (field c)))
        (fun x hx => by
          have hx' := hpost x hx
          exact ⟨by omega, by omega⟩)]
      rw [if_neg (by omega)]
    | cons p pre =>
      have hp := hpre p (List.mem_cons_self p pre)
      have hp0 : levenshtein (jsToLower q) (jsToLower (field p)) ≠ 0 := by omega
      rw [List.cons_append, findLoop_cons_none, if_neg hp0]
      exact findLoop_improve (jsToLower q) q.length field pre c post p _ hc0 hp
        (fun x hx => hpre x (List.mem_cons_of_mem p hx)) hpost hthr

theorem findBestMatch_first_witness :
    findBestMatch (some "Beer")
        (some [Entry.mk 1 "Chips", Entry.mk 2 "beer", Entry.mk 3 "Beer"])
        Entry.name = some (Entry.mk 2 "beer") ∧
    findBestMatch (some "beer")
        (some [Entry.mk 1 "bxxx", Entry.mk 2 "bexx", Entry.mk 3 "byyr"])
        Entry.name = some (Entry.mk 2 "bexx") :=
  ⟨(findBestMatch_first Entry.name).1 "Beer" [Entry.mk 1 "Chips"]
      (Entry.mk 2 "beer") [Entry.mk 3 "Beer"]
      (by decide) (by decide) (by decide),
   (findBestMatch_first Entry.name).2 "beer" [Entry.mk 1 "bxxx"]
      (Entry.mk 2 "bexx") [Entry.mk 3 "byyr"]
      (by decide) (by decide) (by decide) (by decide) (by decide)⟩

/- ==========================================================================
   OCR line parsing (main.js, function parseOcrResult)
   ========================================================================== -/

/-- Whitespace class used by the JS regular-expression escape and by
`String.prototype.trim`, restricted to the ASCII whitespace characters
(the Unicode space characters JS additionally accepts are not modelled). -/
def isJsSpace (c : Char) : Bool :=
  c == ' ' || c == '\t' || c == '\n' || c == '\r' || c == '\x0b' || c == '\x0c'

/-- JS `String.prototype.trim` on a character list: strip leading and
trailing whitespace. -/
def trimChars (l : List Char) : List Char :=
  ((l.dropWhile isJsSpace).reverse.dropWhile isJsSpace).reverse

/-- JS `String.prototype.trim`. -/
def jsTrim (s : String) : String := String.mk (trimChars s.data)

/-- Matches the tail `\s*=\s*(\d+)\s*$` of the item regular expression of
`parseOcrResult` against the whole remaining input, returning the digit
group.  Each step is forced: a whitespace run can only precede `=` if it is
consumed whole, the digit run is maximal, and after it only whitespace may
remain, so no backtracking is possible inside this tail. -/
def matchTail (l : List Char) : Option (List Char) :=
  match l.dropWhile isJsSpace with
  | [] => none
  | c :: rest =>
    if c = '=' then
      let rest2 := rest.dropWhile isJsSpace
      let ds := rest2.takeWhile Char.isDigit
      let after := rest2.dropWhile Char.isDigit
      if ds.isEmpty then none
      else if after.all isJsSpace then some ds else none
    else none

/-- The lazy group `(.*?)` of the item regular expression: try the shortest
description first, extending it one character at a time until the rest of
the line matches the tail `\s*=\s*(\d+)\s*$`.  The accumulator holds the
description read so far, reversed.  Returns the description and the digit
group of the first (shortest-description) match, as the JS engine does. -/
def matchDesc : List Char → List Char → Option (List Char × List Char)
  | acc, [] =>
    match matchTail [] with
    | some ds => some (acc.reverse, ds)
    | none => none
  | acc, ch :: rest =>
    match matchTail (ch :: rest) with
    | some ds => some (acc.reverse, ds)
    | none => matchDesc (ch :: acc) rest

/-- JS `parseInt(digits, 10)` on a run of decimal digits (modelled exactly;
the floating-point rounding JS applies to very long digit runs is not). -/
def digitsToNat (ds : List Char) : Nat :=
  ds.foldl (fun n c => 10 * n + (c.toNat - 48)) 0

/-- One parsed item line: `{ productName, qty }` in `parseOcrResult`. -/
structure OcrItem where
  productName : String
  qty : Nat
deriving DecidableEq

/-- Return value of `parseOcrResult`: `{ clientName, items }`, with `none`
for the JS `null` client name. -/
structure ParsedReceipt where
  clientName : Option String
  items : List OcrItem
deriving DecidableEq

/-- Body of the `for (const line of lines)` loop of `parseOcrResult`: match
the trimmed line against `/^(.*?)\s*=\s*(\d+)\s*$/` and on success build the
item from the trimmed first group and the parsed second group. -/
def parseItemLine (line : String) : Option OcrItem :=
  match matchDesc [] (trimChars line.data) with
  | some (d, ds) => some ⟨String.mk (trimChars d), digitsToNat ds⟩
  | none => none

/-- JS `text.split('\n')` on a character list: the accumulator holds the
current segment, reversed; every `'\n'` closes a segment, and the final
segment is closed at the end of input (so `"a\n"` yields `["a", ""]` and
the empty input yields `[""]`, as in JS). -/
def splitLines : List Char → List Char → List (List Char)
  | acc, [] => [acc.reverse]
  | acc, c :: rest =>
    if c = '\n' then acc.reverse :: splitLines [] rest
    else splitLines (c :: acc) rest

/-- JS `text.split('\n')`. -/
def jsSplitNewline (t : String) : List String :=
  (splitLines [] t.data).map String.mk

/-- The line filter of `parseOcrResult`:
`text.split('\n').filter(line => line.trim() !== '')`. -/
def usableLines (t : String) : List String :=
  (jsSplitNewline t).filter fun l => jsTrim l != ""

/-- The source function `parseOcrResult(text)`.  `none` models a JS `null`
(or any non-string) argument, rejected by the `typeof` guard; the guard
`!text` also sends the empty string to the empty receipt, which coincides
with the zero-usable-lines branch below.  The first usable line, trimmed,
becomes the client name; every later line is matched by `parseItemLine`,
and lines that fail the pattern are silently dropped (`filterMap`). -/
def parseOcrResult : Option String → ParsedReceipt
  | none => ⟨none, []⟩
  | some t =>
    match usableLines t with
    | [] => ⟨none, []⟩
    | first :: rest => ⟨some (jsTrim first), rest.filterMap parseItemLine⟩

/-- The language of the item pattern `^(.*?)\s*=\s*(\d+)\s*$` (with the
leading and trailing whitespace tolerance the surrounding `trim` gives it):
a description, optional whitespace, `=`, optional whitespace, a non-empty
digit run, optional trailing whitespace. -/
def ItemPattern (l : List Char) : Prop :=
  ∃ d w1 w2 ds w3,
    l = d ++ w1 ++ '=' :: (w2 ++ ds ++ w3) ∧
    w1.all isJsSpace = true ∧ w2.all isJsSpace = true ∧
    w3.all isJsSpace = true ∧ ds ≠ [] ∧ ds.all Char.isDigit = true

/- ==========================================================================
   Character classes and takeWhile / dropWhile toolbox
   ========================================================================== -/

theorem space_not_digit (c : Char) (h : isJsSpace c = true) :
    Char.isDigit c = false := by
  simp only [isJsSpace, Bool.or_eq_true, beq_iff_eq] at h
  rcases h with ((((h | h) | h) | h) | h) | h <;> subst h <;> decide

theorem digit_not_space (c : Char) (h : Char.isDigit c = true) :
    isJsSpace c = false := by
  cases hs : isJsSpace c
  · rfl
  · rw [space_not_digit c hs] at h
    exact absurd h (by decide)

theorem all_takeWhile (p : Char → Bool) (l : List Char) :
    (l.takeWhile p).all p = true := by
  induction l with
  | nil => rfl
  | cons x l ih =>
    rw [List.takeWhile_cons]
    by_cases h : p x
    · rw [if_pos h]
      simp [h, ih]
    · rw [if_neg h]
      rfl

theorem dropWhile_append_all (p : Char → Bool) (w l : List Char)
    (hw : w.all p = true) :
    (w ++ l).dropWhile p = l.dropWhile p := by
  induction w with
  | nil => rfl
  | cons x w ih =>
    simp only [List.all_cons, Bool.and_eq_true] at hw
    rw [List.cons_append, List.dropWhile_cons, if_pos (by simp [hw.1])]
    exact ih hw.2

theorem takeWhile_append_all (p : Char → Bool) (w l : List Char)
    (hw : w.all p = true) :
    (w ++ l).takeWhile p = w ++ l.takeWhile p := by
  induction w with
  | nil => rfl
  | cons x w ih =>
    simp only [List.all_cons, Bool.and_eq_true] at hw
    rw [List.cons_append, List.takeWhile_cons, if_pos (by simp [hw.1]),
      ih hw.2]
    exact (List.cons_append x w (List.takeWhile p l)).symm

theorem dropWhile_cons_neg (p : Char → Bool) (x : Char) (l : List Char)
    (hx : p x = false) : (x :: l).dropWhile p = x :: l := by
  rw [List.dropWhile_cons, if_neg (by simp [hx])]

theorem takeWhile_cons_neg (p : Char → Bool) (x : Char) (l : List Char)
    (hx : p x = false) : (x :: l).takeWhile p = [] := by
  rw [List.takeWhile_cons, if_neg (by simp [hx])]

theorem dropWhile_append_stop (p : Char → Bool) (z : Char)
    (hz : p z = false) (A rest : List Char) :
    (A ++ z :: rest).dropWhile p = A.dropWhile p ++ z :: rest := by
  induction A with
  | nil => simp [dropWhile_cons_neg p z rest hz]
  | cons a A ih =>
    rw [List.cons_append, List.dropWhile_cons, List.dropWhile_cons]
    by_cases ha : p a
    · rw [if_pos (by simp [ha]), if_pos (by simp [ha]), ih]
    · rw [if_neg (by simp [ha]), if_neg (by simp [ha]), List.cons_append]

/-- Spaces contain no digit: the digit run of a whitespace list is empty. -/
theorem takeWhile_digit_of_spaces (w : List Char)
    (hw : w.all isJsSpace = true) : w.takeWhile Char.isDigit = [] := by
  cases w with
  | nil => rfl
  | cons c w =>
    simp only [List.all_cons, Bool.and_eq_true] at hw
    exact takeWhile_cons_neg _ _ _ (space_not_digit c hw.1)

theorem dropWhile_digit_of_spaces (w : List Char)
    (hw : w.all isJsSpace = true) : w.dropWhile Char.isDigit = w := by
  cases w with
  | nil => rfl
  | cons c w =>
    simp only [List.all_cons, Bool.and_eq_true] at hw
    exact dropWhile_cons_neg _ _ _ (space_not_digit c hw.1)

/- ==========================================================================
   Characterization of the tail matcher and the lazy matcher
   ========================================================================== -/

theorem matchTail_dropWhile_nil (l : List Char)
    (h : l.dropWhile isJsSpace = []) : matchTail l = none := by
  unfold matchTail
  rw [h]

theorem matchTail_dropWhile_cons (l : List Char) (c : Char)
    (rest : List Char) (h : l.dropWhile isJsSpace = c :: rest) :
    matchTail l =
      if c = '=' then
        if ((rest.dropWhile isJsSpace).takeWhile Char.isDigit).isEmpty then
          none
        else if ((rest.dropWhile isJsSpace).dropWhile Char.isDigit).all
            isJsSpace then
          some ((rest.dropWhile isJsSpace).takeWhile Char.isDigit)
        else none
      else none := by
  unfold matchTail
  rw [h]

theorem matchTail_some_iff (l ds : List Char) :
    matchTail l = some ds ↔
      ∃ w1 w2 w3,
        l = w1 ++ '=' :: (w2 ++ ds ++ w3) ∧
        w1.all isJsSpace = true ∧ w2.all isJsSpace = true ∧
        w3.all isJsSpace = true ∧ ds ≠ [] ∧
        ds.all Char.isDigit = true := by
  constructor
  · intro h
    cases hm : l.dropWhile isJsSpace with
    | nil =>
      rw [matchTail_dropWhile_nil l hm] at h
      exact absurd h (by simp)
    | cons c rest =>
      rw [matchTail_dropWhile_cons l c rest hm] at h
      by_cases hc : c = '='
      · rw [if_pos hc] at h
        subst hc
        by_cases h1 :
            ((rest.dropWhile isJsSpace).takeWhile Char.isDigit).isEmpty
        · rw [if_pos h1] at h
          exact absurd h (by simp)
        · rw [if_neg h1] at h
          by_cases h2 :
              ((rest.dropWhile isJsSpace).dropWhile Char.isDigit).all
                isJsSpace
          · rw [if_pos h2] at h
            have hds : ds =
                (rest.dropWhile isJsSpace).takeWhile Char.isDigit :=
              (Option.some_injective _ h).symm
            refine ⟨l.takeWhile isJsSpace, rest.takeWhile isJsSpace,
              (rest.dropWhile isJsSpace).dropWhile Char.isDigit,
              ?_, all_takeWhile _ _, all_takeWhile _ _, h2, ?_, ?_⟩
            · have hrest : rest = rest.takeWhile isJsSpace ++
                  ((rest.dropWhile isJsSpace).takeWhile Char.isDigit ++
                    (rest.dropWhile isJsSpace).dropWhile Char.isDigit) := by
                rw [List.takeWhile_append_dropWhile Char.isDigit
                  (rest.dropWhile isJsSpace)]
                rw [List.takeWhile_append_dropWhile isJsSpace rest]
              have hfull : l = l.takeWhile isJsSpace ++ ('=' :: rest) := by
                rw [← hm, List.takeWhile_append_dropWhile]
              rw [hds]
              calc l = l.takeWhile isJsSpace ++ ('=' :: rest) := hfull
                _ = l.takeWhile isJsSpace ++ ('=' ::
                      (rest.takeWhile isJsSpace ++
                        ((rest.dropWhile isJsSpace).takeWhile Char.isDigit ++
                          (rest.dropWhile isJsSpace).dropWhile
                            Char.isDigit))) := by
                      rw [← hrest]
                _ = l.takeWhile isJsSpace ++ ('=' ::
                      (rest.takeWhile isJsSpace ++
                        (rest.dropWhile isJsSpace).takeWhile Char.isDigit ++
                        (rest.dropWhile isJsSpace).dropWhile
                          Char.isDigit)) := by
                      simp [List.append_assoc]
            · rw [hds]
              intro hnil
              rw [hnil] at h1
              exact h1 rfl
            · rw [hds]
              exact all_takeWhile _ _
          · rw [if_neg h2] at h
            exact absurd h (by simp)
      · rw [if_neg hc] at h
        exact absurd h (by simp)
  · rintro ⟨w1, w2, w3, rfl, hw1, hw2, hw3, hne, hdig⟩
    obtain ⟨e, ds2, hrev⟩ : ∃ e ds2, ds = e :: ds2 :=
      List.exists_cons_of_ne_nil hne
    have hed : Char.isDigit e = true := by
      subst hrev
      simp only [List.all_cons, Bool.and_eq_true] at hdig
      exact hdig.1
    have hm : (w1 ++ '=' :: (w2 ++ ds ++ w3)).dropWhile isJsSpace =
        '=' :: (w2 ++ ds ++ w3) := by
      rw [dropWhile_append_all isJsSpace w1 _ hw1]
      exact dropWhile_cons_neg _ _ _ (by decide)
    rw [matchTail_dropWhile_cons _ _ _ hm, if_pos rfl]
    have hrest2 : (w2 ++ ds ++ w3).dropWhile isJsSpace = ds ++ w3 := by
      rw [List.append_assoc, dropWhile_append_all isJsSpace w2 _ hw2]
      subst hrev
      rw [List.cons_append]
      exact dropWhile_cons_neg _ _ _ (digit_not_space e hed)
    have hds : ((w2 ++ ds ++ w3).dropWhile isJsSpace).takeWhile
        Char.isDigit = ds := by
      rw [hrest2, takeWhile_append_all Char.isDigit ds w3 hdig,
        takeWhile_digit_of_spaces w3 hw3, List.append_nil]
    have hafter : ((w2 ++ ds ++ w3).dropWhile isJsSpace).dropWhile
        Char.isDigit = w3 := by
      rw [hrest2, dropWhile_append_all Char.isDigit ds w3 hdig]
      exact dropWhile_digit_of_spaces w3 hw3
    rw [hds, hafter]
    rw [if_neg (by simp [hne]), if_pos hw3]

theorem matchTail_nil : matchTail [] = none := rfl

theorem matchDesc_nil (acc : List Char) : matchDesc acc [] = none := rfl

theorem matchDesc_cons_some (acc : List Char) (ch : Char)
    (rest ds : List Char) (h : matchTail (ch :: rest) = some ds) :
    matchDesc acc (ch :: rest) = some (acc.reverse, ds) := by
  rw [matchDesc, h]

theorem matchDesc_cons_none (acc : List Char) (ch : Char)
    (rest : List Char) (h : matchTail (ch :: rest) = none) :
    matchDesc acc (ch :: rest) = matchDesc (ch :: acc) rest := by
  rw [matchDesc, h]

/-- The lazy scan succeeds exactly when some split of the line lets the
tail pattern match the remainder. -/
theorem matchDesc_isSome_iff : ∀ (l acc : List Char),
    (matchDesc acc l).isSome = true ↔
      ∃ d r, l = d ++ r ∧ (matchTail r).isSome = true := by
  intro l
  induction l with
  | nil =>
    intro acc
    rw [matchDesc_nil]
    constructor
    · intro h
      exact absurd h (by simp)
    · rintro ⟨d, r, hdr, hr⟩
      obtain ⟨hd, hr0⟩ := List.append_eq_nil.mp hdr.symm
      rw [hr0, matchTail_nil] at hr
      exact absurd hr (by simp)
  | cons ch rest ih =>
    intro acc
    cases hmt : matchTail (ch :: rest) with
    | some ds =>
      rw [matchDesc_cons_some acc ch rest ds hmt]
      constructor
      · intro _
        exact ⟨[], ch :: rest, rfl, by simp [hmt]⟩
      · intro _
        simp
    | none =>
      rw [matchDesc_cons_none acc ch rest hmt]
      rw [ih (ch :: acc)]
      constructor
      · rintro ⟨d, r, rfl, hr⟩
        exact ⟨ch :: d, r, rfl, hr⟩
      · rintro ⟨d, r, hdr, hr⟩
        cases d with
        | nil =>
          rw [List.nil_append] at hdr
          rw [← hdr, hmt] at hr
          exact absurd hr (by simp)
        | cons d0 d =>
          rw [List.cons_append] at hdr
          injection hdr with h1 h2
          exact ⟨d, r, h2, hr⟩

/-- Every list splits as leading whitespace, its trimmed core, and trailing
whitespace. -/
theorem trimChars_decomp (l : List Char) :
    ∃ lw tw, l = lw ++ trimChars l ++ tw ∧ lw.all isJsSpace = true ∧
      tw.all isJsSpace = true := by
  refine ⟨l.takeWhile isJsSpace,
    ((l.dropWhile isJsSpace).reverse.takeWhile isJsSpace).reverse, ?_,
    all_takeWhile _ _, ?_⟩
  · rw [trimChars]
    simp only [List.append_assoc]
    conv_lhs => rw [← List.takeWhile_append_dropWhile isJsSpace l]
    congr 1
    have h := congrArg List.reverse
      (List.takeWhile_append_dropWhile isJsSpace
        (l.dropWhile isJsSpace).reverse)
    simp only [List.reverse_append, List.reverse_reverse] at h
    exact h.symm
  · have h := all_takeWhile isJsSpace (l.dropWhile isJsSpace).reverse
    simp only [List.all_eq_true] at h ⊢
    intro x hx
    exact h x (List.mem_reverse.mp hx)

/-- Trimming does not change membership in the item-pattern language: the
pattern absorbs leading whitespace into the description and allows trailing
whitespace after the digits. -/
theorem ItemPattern_trimChars (l : List Char) :
    ItemPattern (trimChars l) ↔ ItemPattern l := by
  constructor
  · rintro ⟨d, w1, w2, ds, w3, heq, p1, p2, p3, p4, p5⟩
    obtain ⟨lw, tw, hl, hlw, htw⟩ := trimChars_decomp l
    refine ⟨lw ++ d, w1, w2, ds, w3 ++ tw, ?_, p1, p2, ?_, p4, p5⟩
    · rw [hl, heq]
      simp [List.append_assoc]
    · simp only [List.all_append, Bool.and_eq_true]
      exact ⟨p3, htw⟩
  · rintro ⟨d, w1, w2, ds, w3, heq, p1, p2, p3, p4, p5⟩
    obtain ⟨e, ds2, hrev⟩ : ∃ e ds2, ds.reverse = e :: ds2 := by
      cases hr : ds.reverse with
      | nil => exact absurd (List.reverse_eq_nil_iff.mp hr) p4
      | cons e ds2 => exact ⟨e, ds2, rfl⟩
    have hed : Char.isDigit e = true := by
      have hmem : e ∈ ds.reverse := by
        rw [hrev]
        exact List.mem_cons_self e ds2
      exact (List.all_eq_true.mp p5) e (List.mem_reverse.mp hmem)
    have hw3r : w3.reverse.all isJsSpace = true := by
      simp only [List.all_eq_true] at p3 ⊢
      intro x hx
      exact p3 x (List.mem_reverse.mp hx)
    have hA : l.dropWhile isJsSpace =
        (d ++ w1).dropWhile isJsSpace ++ '=' :: (w2 ++ ds ++ w3) := by
      rw [heq]
      exact dropWhile_append_stop isJsSpace '=' (by decide) (d ++ w1) _
    refine ⟨(d ++ w1).dropWhile isJsSpace, [], w2, ds, [], ?_, rfl, p2,
      rfl, p4, p5⟩
    rw [trimChars, hA]
    have h1 : (((d ++ w1).dropWhile isJsSpace) ++
          '=' :: (w2 ++ ds ++ w3)).reverse =
        w3.reverse ++ (ds.reverse ++ (w2.reverse ++
          ('=' :: ((d ++ w1).dropWhile isJsSpace).reverse))) := by
      simp [List.append_assoc]
    rw [h1]
    rw [dropWhile_append_all isJsSpace w3.reverse _ hw3r]
    rw [hrev, List.cons_append]
    rw [dropWhile_cons_neg _ _ _ (digit_not_space e hed)]
    rw [← List.cons_append, ← hrev]
    simp [List.append_assoc]

/-- The item matcher of `parseOcrResult` accepts exactly the lines of the
pattern language. -/
theorem parseItemLine_isSome_iff (line : String) :
    (parseItemLine line).isSome = true ↔ ItemPattern line.data := by
  have h1 : (parseItemLine line).isSome =
      (matchDesc [] (trimChars line.data)).isSome := by
    rw [parseItemLine]
    cases matchDesc [] (trimChars line.data) with
    | none => rfl
    | some p =>
      obtain ⟨d, ds⟩ := p
      rfl
  rw [h1, matchDesc_isSome_iff]
  rw [← ItemPattern_trimChars]
  constructor
  · rintro ⟨d, r, hdr, hr⟩
    rw [Option.isSome_iff_exists] at hr
    obtain ⟨ds, hds⟩ := hr
    obtain ⟨w1, w2, w3, hr2, p1, p2, p3, p4, p5⟩ :=
      (matchTail_some_iff r ds).mp hds
    exact ⟨d, w1, w2, ds, w3, by rw [hdr, hr2, ← List.append_assoc],
      p1, p2, p3, p4, p5⟩
  · rintro ⟨d, w1, w2, ds, w3, heq, p1, p2, p3, p4, p5⟩
    refine ⟨d, w1 ++ '=' :: (w2 ++ ds ++ w3), by rw [heq, List.append_assoc],
      ?_⟩
    rw [(matchTail_some_iff _ ds).mpr ⟨w1, w2, w3, rfl, p1, p2, p3, p4, p5⟩]
    rfl

theorem parseOcrResult_none : parseOcrResult none = ⟨none, []⟩ := rfl

theorem parseOcrResult_usable_nil (t : String)
    (h : usableLines t = []) : parseOcrResult (some t) = ⟨none, []⟩ := by
  rw [parseOcrResult, h]

theorem parseOcrResult_usable_cons (t : String) (first : String)
    (rest : List String) (h : usableLines t = first :: rest) :
    parseOcrResult (some t) =
      ⟨some (jsTrim first), rest.filterMap parseItemLine⟩ := by
  rw [parseOcrResult, h]

/- ==========================================================================
   Claim theorems about the parser
   ========================================================================== -/

/-- C5: on any text with at least one usable line, `parseOcrResult` takes
the first usable line, trimmed, as the client name, and the items are
exactly the later lines accepted by the item matcher, in input order, with
rejected lines silently dropped; and the item matcher accepts exactly the
lines of the pattern (description, optional whitespace, `=`, optional
whitespace, a non-empty digit run, optional surrounding whitespace). -/
theorem parseOcrResult_spec :
    (∀ (t first : String) (rest : List String),
      usableLines t = first :: rest →
      parseOcrResult (some t) =
        ⟨some (jsTrim first), rest.filterMap parseItemLine⟩) ∧
    (∀ line : String,
      (parseItemLine line).isSome = true ↔ ItemPattern line.data) :=
  ⟨parseOcrResult_usable_cons, parseItemLine_isSome_iff⟩

theorem parseOcrResult_spec_witness :
    parseOcrResult (some "Alice\nBeer = 3\nChips 1\nSoda = 2") =
      ⟨some "Alice", [⟨"Beer", 3⟩, ⟨"Soda", 2⟩]⟩ ∧
    ¬ ItemPattern "Chips 1".data := by
  constructor
  · exact (parseOcrResult_spec.1 "Alice\nBeer = 3\nChips 1\nSoda = 2"
      "Alice" ["Beer = 3", "Chips 1", "Soda = 2"] (by decide)).trans
      (by decide)
  · intro hp
    exact absurd ((parseOcrResult_spec.2 "Chips 1").mpr hp) (by decide)

/-- C8: `parseOcrResult` maps a `null` or non-string argument, and any text
whose lines are all empty after trimming (the empty string included, via
the `!text` guard), to the empty receipt; as a total function it raises no
exception on any input. -/
theorem parseOcrResult_empty :
    parseOcrResult none = ⟨none, []⟩ ∧
    ∀ t : String, usableLines t = [] →
      parseOcrResult (some t) = ⟨none, []⟩ :=
  ⟨parseOcrResult_none, parseOcrResult_usable_nil⟩

theorem parseOcrResult_empty_witness :
    parseOcrResult (some "") = ⟨none, []⟩ ∧
    parseOcrResult (some " \n\t \n ") = ⟨none, []⟩ :=
  ⟨parseOcrResult_empty.2 "" (by decide),
   parseOcrResult_empty.2 " \n\t \n " (by decide)⟩

/- ==========================================================================
   Autofill reconciler (main.js, function populateFormWithOcrData)
   ========================================================================== -/

/-- Outcome of `populateFormWithOcrData`: either the early return with the
"client not found" warning, or the filled form, recording the
`UI.selectClient` target, the `UI.setProductQuantity` calls in order, the
texts of the "product not found" warnings in order, and the final
`allItemsFound` flag. -/
inductive ReconcileOutcome where
  | clientUnresolved (queryName : Option String)
  | filled (clientId : Nat) (resolved : List (Nat × Nat))
      (unresolvedTexts : List String) (allItemsFound : Bool)
deriving DecidableEq

/-- Body of the `for (const item of parsedData.items)` loop: a product
match appends a `UI.setProductQuantity(id, qty)` call, a miss appends the
item text to the warned-about list and clears `allItemsFound`. -/
def fillStep (products : List Entry)
    (acc : List (Nat × Nat) × List String × Bool) (item : OcrItem) :
    List (Nat × Nat) × List String × Bool :=
  match findBestMatch (some item.productName) (some products) Entry.name with
  | some p => (acc.1 ++ [(p.id, item.qty)], acc.2.1, acc.2.2)
  | none => (acc.1, acc.2.1 ++ [item.productName], false)

/-- The source function `populateFormWithOcrData(parsedData)`, with the
catalog passed explicitly instead of read from `appState` (the caller
guarantees `parsedData` itself is not null, so that guard is not modelled).
If the client query finds no match the function returns after the warning;
otherwise it selects the client and walks the items. -/
def populateFormWithOcrData (parsed : ParsedReceipt)
    (clients products : List Entry) : ReconcileOutcome :=
  match findBestMatch parsed.clientName (some clients) Entry.name with
  | none => .clientUnresolved parsed.clientName
  | some client =>
    match parsed.items.foldl (fillStep products) ([], [], true) with
    | (r, u, a) => .filled client.id r u a

theorem foldl_fillStep (products : List Entry) :
    ∀ (items : List OcrItem) (R : List (Nat × Nat)) (U : List String)
      (A : Bool),
      items.foldl (fillStep products) (R, U, A) =
        (R ++ items.filterMap fun it =>
            (findBestMatch (some it.productName) (some products)
              Entry.name).map fun p => (p.id, it.qty),
         U ++ items.filterMap fun it =>
            match findBestMatch (some it.productName) (some products)
              Entry.name with
            | none => some it.productName
            | some _ => none,
         A && items.all fun it =>
            (findBestMatch (some it.productName) (some products)
              Entry.name).isSome) := by
  intro items
  induction items with
  | nil => intro R U A; simp
  | cons it items ih =>
    intro R U A
    rw [List.foldl_cons]
    cases hm : findBestMatch (some it.productName) (some products)
        Entry.name with
    | some p =>
      have hstep : fillStep products (R, U, A) it =
          (R ++ [(p.id, it.qty)], U, A) := by
        rw [fillStep, hm]
      rw [hstep, ih]
      simp [hm, List.append_assoc]
    | none =>
      have hstep : fillStep products (R, U, A) it =
          (R, U ++ [it.productName], false) := by
        rw [fillStep, hm]
      rw [hstep, ih]
      simp [hm, List.append_assoc]

/-- With a resolved client, the walk over the items is exactly a filter-map
for the resolved pairs, a filter-map for the unresolved texts, and an
all-resolved flag. -/
theorem populateForm_filled (parsed : ParsedReceipt)
    (clients products : List Entry) (client : Entry)
    (h : findBestMatch parsed.clientName (some clients) Entry.name =
      some client) :
    populateFormWithOcrData parsed clients products =
      .filled client.id
        (parsed.items.filterMap fun it =>
          (findBestMatch (some it.productName) (some products)
            Entry.name).map fun p => (p.id, it.qty))
        (parsed.items.filterMap fun it =>
          match findBestMatch (some it.productName) (some products)
            Entry.name with
          | none => some it.productName
          | some _ => none)
        (parsed.items.all fun it =>
          (findBestMatch (some it.productName) (some products)
            Entry.name).isSome) := by
  rw [populateFormWithOcrData, h, foldl_fillStep]
  simp

/-- An unresolved client query makes `populateFormWithOcrData` return the
bare warning before any item is touched. -/
theorem populateForm_unresolved (parsed : ParsedReceipt)
    (clients products : List Entry)
    (h : findBestMatch parsed.clientName (some clients) Entry.name = none) :
    populateFormWithOcrData parsed clients products =
      .clientUnresolved parsed.clientName := by
  rw [populateFormWithOcrData, h]

/-- C6: when the parsed client name finds no acceptable match in the client
catalog, the reconciliation reports failure for the client and processes no
item: the outcome is the bare client-unresolved report, carrying no
resolved item, whatever the items are and however well they would match. -/
theorem populateForm_client_short_circuit (parsed : ParsedReceipt)
    (clients products : List Entry)
    (h : findBestMatch parsed.clientName (some clients) Entry.name = none) :
    populateFormWithOcrData parsed clients products =
      .clientUnresolved parsed.clientName :=
  populateForm_unresolved parsed clients products h

theorem populateForm_client_short_circuit_witness :
    populateFormWithOcrData
        ⟨some "Zyx", [⟨"Beer", 2⟩]⟩
        [Entry.mk 1 "Alice", Entry.mk 2 "Bob"]
        [Entry.mk 1 "Beer"] =
      .clientUnresolved (some "Zyx") :=
  populateForm_client_short_circuit _ _ _ (by decide)

/-- C7: with a resolved client, every item is processed independently: each
resolved item contributes its `(productId, qty)` pair, each unresolved item
contributes its original text without blocking later items, and the
all-items-found flag is `true` exactly when every item resolved. -/
theorem populateForm_items (parsed : ParsedReceipt)
    (clients products : List Entry) (client : Entry)
    (h : findBestMatch parsed.clientName (some clients) Entry.name =
      some client) :
    populateFormWithOcrData parsed clients products =
      .filled client.id
        (parsed.items.filterMap fun it =>
          (findBestMatch (some it.productName) (some products)
            Entry.name).map fun p => (p.id, it.qty))
        (parsed.items.filterMap fun it =>
          match findBestMatch (some it.productName) (some products)
            Entry.name with
          | none => some it.productName
          | some _ => none)
        (parsed.items.all fun it =>
          (findBestMatch (some it.productName) (some products)
            Entry.name).isSome) :=
  populateForm_filled parsed clients products client h

theorem populateForm_items_witness :
    populateFormWithOcrData
        ⟨some "Alice", [⟨"Beer", 2⟩, ⟨"Soda", 1⟩]⟩
        [Entry.mk 7 "Alice"]
        [Entry.mk 1 "Beer", Entry.mk 2 "Chips"] =
      .filled 7 [(1, 2)] ["Soda"] false :=
  (populateForm_items ⟨some "Alice", [⟨"Beer", 2⟩, ⟨"Soda", 1⟩]⟩
      [Entry.mk 7 "Alice"] [Entry.mk 1 "Beer", Entry.mk 2 "Chips"]
      (Entry.mk 7 "Alice") (by decide)).trans (by decide)

/- ==========================================================================
   OCR flow (main.js, function handleImageUpload)
   ========================================================================== -/

/-- Reportable outcome of the OCR flow once the recognition engine has
produced its text: `raisedNothingUseful` is the thrown
`'Não foi possível extrair informações úteis...'` error (surfaced as an
error toast by the catch block), `raisedClientNotFound` is the warning
toast and early return of the client step, and `completed` carries the
filled form. -/
inductive OcrFlowOutcome where
  | raisedNothingUseful
  | raisedClientNotFound (queryName : Option String)
  | completed (clientId : Nat) (resolved : List (Nat × Nat))
      (unresolvedTexts : List String) (allItemsFound : Bool)
deriving DecidableEq

/-- Whether the outcome is a raised reportable condition (a thrown error or
the client-not-found warning plus abort), as opposed to a completed fill
(whose per-item warnings are carried in the result, not raised). -/
def raisesCondition : OcrFlowOutcome → Bool
  | .raisedNothingUseful => true
  | .raisedClientNotFound _ => true
  | .completed _ _ _ _ => false

/-- Decision logic of `handleImageUpload` after OCR, with the recognized
text passed in place of the engine call: the guard
`!parsedData.clientName || parsedData.items.length === 0` throws (the
falsiness test on the client name accepts both `null` and the empty
string), and otherwise `populateFormWithOcrData` runs. -/
def handleOcrText (text : Option String) (clients products : List Entry) :
    OcrFlowOutcome :=
  if (parseOcrResult text).clientName = none ∨
      (parseOcrResult text).clientName = some "" ∨
      (parseOcrResult text).items = [] then
    .raisedNothingUseful
  else
    match populateFormWithOcrData (parseOcrResult text) clients products with
    | .clientUnresolved n => .raisedClientNotFound n
    | .filled cid r u a => .completed cid r u a

/-- A usable first line never trims to the empty string: the line filter
already discarded lines that are empty after trimming. -/
theorem usableLines_head_ne (t first : String) (rest : List String)
    (h : usableLines t = first :: rest) : jsTrim first ≠ "" := by
  have hmem : first ∈ usableLines t := by
    rw [h]
    exact List.mem_cons_self first rest
  have hp := List.of_mem_filter hmem
  simpa using hp

/-- C2 counterexample: on the text `"Alice\nBeer"` there are two usable
lines and the client resolves exactly, yet the flow raises the
nothing-useful condition, because no item line parsed — a third raise case
beyond the two the claim allows. -/
theorem handleOcr_counterexample :
    usableLines "Alice\nBeer" ≠ [] ∧
    findBestMatch (parseOcrResult (some "Alice\nBeer")).clientName
        (some [Entry.mk 1 "Alice"]) Entry.name = some (Entry.mk 1 "Alice") ∧
    raisesCondition (handleOcrText (some "Alice\nBeer")
        [Entry.mk 1 "Alice"] [Entry.mk 1 "Beer"]) = true := by
  refine ⟨by decide, by decide, by decide⟩

/-- C2 (amended): the flow raises a reportable condition exactly when the
text has no usable line, or no line parses as an item, or the client name
fails to resolve; and when none of these holds the outcome is the
completed fill, in which unresolved items are reported as texts and the
resolved items are still applied. -/
theorem handleOcr_raise_iff (text : String) (clients products : List Entry) :
    (raisesCondition (handleOcrText (some text) clients products) = true ↔
      (usableLines text = [] ∨ (parseOcrResult (some text)).items = [] ∨
        findBestMatch (parseOcrResult (some text)).clientName (some clients)
          Entry.name = none)) ∧
    (∀ client : Entry,
      findBestMatch (parseOcrResult (some text)).clientName (some clients)
          Entry.name = some client →
      (parseOcrResult (some text)).items ≠ [] →
      handleOcrText (some text) clients products =
        .completed client.id
          ((parseOcrResult (some text)).items.filterMap fun it =>
            (findBestMatch (some it.productName) (some products)
              Entry.name).map fun p => (p.id, it.qty))
          ((parseOcrResult (some text)).items.filterMap fun it =>
            match findBestMatch (some it.productName) (some products)
              Entry.name with
            | none => some it.productName
            | some _ => none)
          ((parseOcrResult (some text)).items.all fun it =>
            (findBestMatch (some it.productName) (some products)
              Entry.name).isSome)) := by
  cases husable : usableLines text with
  | nil =>
    have hparsed : parseOcrResult (some text) = ⟨none, []⟩ :=
      parseOcrResult_usable_nil text husable
    constructor
    · rw [handleOcrText, if_pos (by rw [hparsed]; exact Or.inl rfl)]
      simp [raisesCondition]
    · intro client hclient hitems
      rw [hparsed] at hitems
      exact absurd rfl hitems
  | cons first rest =>
    have hparsed : parseOcrResult (some text) =
        ⟨some (jsTrim first), rest.filterMap parseItemLine⟩ :=
      parseOcrResult_usable_cons text first rest husable
    have hne := usableLines_head_ne text first rest husable
    have hcn1 : ¬ (parseOcrResult (some text)).clientName = none := by
      rw [hparsed]
      simp
    have hcn2 : ¬ (parseOcrResult (some text)).clientName = some "" := by
      rw [hparsed]
      simp [hne]
    by_cases hitems : (parseOcrResult (some text)).items = []
    · constructor
      · rw [handleOcrText, if_pos (Or.inr (Or.inr hitems))]
        simp [raisesCondition, husable, hitems]
      · intro client hclient hitems2
        exact absurd hitems hitems2
    · have hguard : ¬ ((parseOcrResult (some text)).clientName = none ∨
          (parseOcrResult (some text)).clientName = some "" ∨
          (parseOcrResult (some text)).items = []) := by
        intro hor
        rcases hor with h | h | h
        · exact hcn1 h
        · exact hcn2 h
        · exact hitems h
      cases hmatch : findBestMatch (parseOcrResult (some text)).clientName
          (some clients) Entry.name with
      | none =>
        have hpop := populateForm_unresolved
          (parseOcrResult (some text)) clients products hmatch
        constructor
        · rw [handleOcrText, if_neg hguard, hpop]
          simp [raisesCondition, husable, hitems]
        · intro client hclient hitems2
          exact absurd hclient (by simp)
      | some client =>
        have hpop := populateForm_filled
          (parseOcrResult (some text)) clients products client hmatch
        constructor
        · rw [handleOcrText, if_neg hguard, hpop]
          simp [raisesCondition, husable, hitems, hmatch]
        · intro client2 hclient2 hitems2
          have hcc : client = client2 := by
            injection hclient2
          subst hcc
          rw [handleOcrText, if_neg hguard, hpop]

theorem handleOcr_raise_iff_witness :
    handleOcrText (some "Alice\nBeer = 2\nSoda = 1")
        [Entry.mk 7 "Alice"] [Entry.mk 1 "Beer", Entry.mk 2 "Chips"] =
      .completed 7 [(1, 2)] ["Soda"] false :=
  ((handleOcr_raise_iff "Alice\nBeer = 2\nSoda = 1"
      [Entry.mk 7 "Alice"] [Entry.mk 1 "Beer", Entry.mk 2 "Chips"]).2
    (Entry.mk 7 "Alice") (by decide) (by decide)).trans (by decide)

/- ==========================================================================
   Balance derivation (store module, getClientBalance / addPayment)
   ========================================================================== -/

/-- Catalog product as `getClientBalance` reads it (JS numbers modelled as
rationals; the monetary values of this development are exact). -/
structure Product where
  id : Nat
  name : String
  price : ℚ
deriving DecidableEq

/-- One row of the transactions table.  Following the store module, `qty`
holds the unit count of a debit, but the monetary amount of a payment
(`addPayment` stores `paymentData.amount` in it). -/
structure Txn where
  clientId : Nat
  productId : Nat
  qty : ℚ
  type : String
deriving DecidableEq

/-- The lookup `productsMap[transaction.productId] || 0` of
`getClientBalance`: the map is keyed by product id (`reduce` over the
catalog; ids are unique, being auto-increment keys starting at 1, so first
match and last match agree), a missing id yields `undefined` and hence 0,
and a stored price of 0 — also falsy — likewise yields 0. -/
def priceMap (products : List Product) (pid : Nat) : ℚ :=
  match products.find? (fun p => p.id == pid) with
  | some p => p.price
  | none => 0

/-- The source function `getClientBalance`, given the client's transactions
and the product catalog: every transaction, debit or credit alike,
contributes `productPrice * qty`, added for `'debit'` rows and subtracted
for `'credit'` rows. -/
def getClientBalance (transactions : List Txn)
    (products : List Product) : ℚ :=
  transactions.foldl
    (fun balance t =>
      if t.type == "debit" then
        balance + priceMap products t.productId * t.qty
      else if t.type == "credit" then
        balance - priceMap products t.productId * t.qty
      else balance)
    0

/-- The transaction row written by the source function `addPayment`:
`productId = 0` (the payment sentinel), the monetary amount stored in
`qty`, type `'credit'`. -/
def addPayment (clientId : Nat) (amount : ℚ) : Txn :=
  ⟨clientId, 0, amount, "credit"⟩

/-- C1 evidence: for the spec's own example — one debit of 3 units of a
5.00 product and one payment of 10.00 — the code yields 15.00, not the
5.00 the claim derives: the payment row has product id 0, absent from the
catalog, so its price lookup yields 0 and the credit subtracts
`0 * 10 = 0` instead of the amount 10. -/
theorem getClientBalance_payment_bug :
    getClientBalance [Txn.mk 1 1 3 "debit", addPayment 1 10]
        [Product.mk 1 "Cerveja" 5] = 15 ∧
    getClientBalance [Txn.mk 1 1 3 "debit", addPayment 1 10]
        [Product.mk 1 "Cerveja" 5] ≠ 5 := by
  have hp1 : priceMap [Product.mk 1 "Cerveja" 5] 1 = 5 := rfl
  have hp0 : priceMap [Product.mk 1 "Cerveja" 5] 0 = 0 := rfl
  have h : getClientBalance [Txn.mk 1 1 3 "debit", addPayment 1 10]
      [Product.mk 1 "Cerveja" 5] = 15 := by
    rw [getClientBalance, addPayment]
    simp only [List.foldl_cons, List.foldl_nil]
    norm_num [hp0, hp1,
      show (("debit" == "debit") : Bool) = true from rfl,
      show (("credit" == "debit") : Bool) = false from rfl,
      show (("credit" == "credit") : Bool) = true from rfl]
  refine ⟨h, ?_⟩
  rw [h]
  norm_num

end ContaBar
